import Mathlib

/-!
Verification development for the transcript-timing alignment engine of the
podtrack repository.

The embedding models Python strings as `List Char` (one entry per code
point), Python floats as `ℚ` (the program only stores, compares and copies
them, so exact rationals are a faithful model of the non-NaN comparisons),
and fallible code as `Except`/`Option` values.  The spaCy NLP pipeline and
the difflib similarity primitive are external collaborators of the engine;
they enter the embedding as explicit function parameters, so every theorem
quantifies over their behaviour.
-/

namespace Podtrack

/-- Python `str.strip()` on a list of characters: remove leading and
trailing whitespace. -/
def pyStrip (s : List Char) : List Char :=
  ((s.dropWhile Char.isWhitespace).reverse.dropWhile Char.isWhitespace).reverse

/-- Python slicing `s[a:b]` (with `a ≤ b`) on a list of characters. -/
def pySlice (s : List Char) (a b : Nat) : List Char :=
  (s.drop a).take (b - a)

/-- The apostrophe character (code point 39). -/
def apos : Char := Char.ofNat 39

instance {ε α : Type} [DecidableEq ε] [DecidableEq α] :
    DecidableEq (Except ε α) := fun x y =>
  match x, y with
  | .ok a, .ok b =>
    if h : a = b then isTrue (by rw [h]) else isFalse (fun hc => by cases hc; exact h rfl)
  | .error a, .error b =>
    if h : a = b then isTrue (by rw [h]) else isFalse (fun hc => by cases hc; exact h rfl)
  | .ok _, .error _ => isFalse (fun hc => by cases hc)
  | .error _, .ok _ => isFalse (fun hc => by cases hc)

/-! ## sentence_matcher.py -/

/-- `WordSegment` dataclass of `sentence_matcher.py`: one recognizer token
with timing and confidence. -/
structure WordSegment where
  text : List Char
  start : ℚ
  end_ : ℚ
  conf : ℚ
deriving DecidableEq, Inhabited

/-- The dictionary `{start, end, ratio}` built by
`SentenceMatcher.find_matching_span` when a window wins. -/
structure MatchResult where
  start : ℚ
  end_ : ℚ
  ratio : ℚ
deriving DecidableEq, Inhabited

/-- The inner-loop index list of `find_matching_span`:
`range(i + 1, min(i + window_size, len(segments) + 1))`. -/
def jRange (i ws n : Nat) : List Nat :=
  List.range' (i + 1) (min (i + ws) (n + 1) - (i + 1))

/-- The end-index range asserted by the claim and the specification:
`j` ranging over the half-open-left interval `(i, min(i + window_size, n)]`.
Written from the claim text, for comparison against `jRange`. -/
def claimJRange (i ws n : Nat) : List Nat :=
  List.range' (i + 1) (min (i + ws) n + 1 - (i + 1))

/-- The window text of `find_matching_span`: the lowercased texts of
`segments[i:j]` joined with single spaces. -/
def windowText (segments : List WordSegment) (i j : Nat) : List Char :=
  List.intercalate [' ']
    (((segments.drop i).take (j - i)).map (fun s => s.text.map Char.toLower))

/-- The target text of `find_matching_span`: the target tokens joined
with single spaces. -/
def targetTextOf (targetTokens : List (List Char)) : List Char :=
  List.intercalate [' '] targetTokens

/-- One candidate of the sliding-window scan: the similarity ratio of
window `[i, j)` paired with the `{start, end, ratio}` dictionary the loop
body would record for it. -/
def candidate (ratio : List Char → List Char → ℚ) (targetText : List Char)
    (segments : List WordSegment) (i j : Nat) : ℚ × MatchResult :=
  let r := ratio targetText (windowText segments i j)
  (r, ⟨(segments.getD i default).start, (segments.getD (j - 1) default).end_, r⟩)

/-- All candidates of `find_matching_span`, in the order the two nested
`for` loops visit them (`i` over `range(len(segments))`, `j` over
`jRange`). -/
def candidates (ratio : List Char → List Char → ℚ) (targetText : List Char)
    (segments : List WordSegment) (ws : Nat) : List (ℚ × MatchResult) :=
  (List.range segments.length).flatMap (fun i =>
    (jRange i ws segments.length).map (fun j =>
      candidate ratio targetText segments i j))

/-- The loop body of `find_matching_span`: update `(best_ratio, best_match)`
when `ratio > best_ratio` (strict improvement). -/
def scanStep (b : ℚ × Option MatchResult) (c : ℚ × MatchResult) :
    ℚ × Option MatchResult :=
  if b.1 < c.1 then (c.1, some c.2) else b

/-- `SentenceMatcher.find_matching_span`.  `ratio` is the injected
`calculate_edit_distance_ratio` collaborator (the difflib
`SequenceMatcher` in the source).  Returns `none` on empty inputs, otherwise folds the loop
body over all candidate windows starting from
`(best_ratio, best_match) = (min_ratio, None)`. -/
def findMatchingSpan (ratio : List Char → List Char → ℚ)
    (targetTokens : List (List Char)) (segments : List WordSegment)
    (minRatio : ℚ) (windowSize : Nat) : Option MatchResult :=
  if targetTokens = [] ∨ segments = [] then none
  else
    ((candidates ratio (targetTextOf targetTokens) segments windowSize).foldl
      scanStep (minRatio, none)).2

/-- First element of a candidate list attaining the maximal ratio (ties in
the maximum keep the earliest element).  Proof-side description of what the
strict-improvement fold tracks. -/
def argmaxFirst : List (ℚ × MatchResult) → Option (ℚ × MatchResult)
  | [] => none
  | c :: cs =>
    match argmaxFirst cs with
    | none => some c
    | some d => if c.1 < d.1 then some d else some c

/-- The speaker-label substitution of
`SentenceMatcher.get_normalized_tokens`, an anchored pattern of one or
more non-colon characters followed by a colon: it removes the prefix up to
and including the first colon when at least one non-colon character
precedes it, and leaves the text unchanged otherwise. -/
def removeSpeakerLabel (s : List Char) : List Char :=
  let pre := s.takeWhile (fun c => c ≠ ':')
  if 0 < pre.length ∧ pre.length < s.length then s.drop (pre.length + 1) else s

/-- The pre-NLP text transformation of `get_normalized_tokens`:
speaker-label removal, then strip, then lowercase. -/
def normalizePreNLP (s : List Char) : List Char :=
  (pyStrip (removeSpeakerLabel s)).map Char.toLower

/-! ## sentence_matcher.py: load_word_segments (CSV loading) -/

/-- The `WordSegment` value as `load_word_segments` actually constructs it:
`csv.DictReader` hands back `None` for a field missing from a short row
(its `restval` default), and the dataclass stores that `None` unchecked, so
the text slot is modelled as optional. -/
structure LoadedWordSegment where
  text : Option String
  start : ℚ
  end_ : ℚ
  conf : ℚ
deriving DecidableEq

/-- `row[key]` for a `csv.DictReader` row: `KeyError` when the key is not a
header column, the cell value when the row has one at that column, and
`None` (the reader `restval`) when the row is shorter than the header. -/
def dictGet (header row : List String) (key : String) :
    Except String (Option String) :=
  match header.findIdx? (fun h => h = key) with
  | none => .error ("KeyError: " ++ key)
  | some i => .ok (row.get? i)

/-- Digit run to a natural number. -/
def digitsVal (l : List Char) : Nat :=
  l.foldl (fun a c => a * 10 + (c.toNat - 48)) 0

/-- Unsigned part of Python `float(str)` parsing: digits with an optional
single decimal point.  Modelled from Python `float()` semantics restricted
to plain decimal literals (no exponent, infinity or nan forms, which no
input of this development uses). -/
def pyFloatParseCore (t : List Char) : Option ℚ :=
  let intPart := t.takeWhile Char.isDigit
  match t.drop intPart.length with
  | [] => if intPart.length = 0 then none else some ((digitsVal intPart : ℚ))
  | '.' :: frac =>
    if frac.all Char.isDigit ∧ 0 < intPart.length + frac.length then
      some ((digitsVal intPart : ℚ) + (digitsVal frac : ℚ) / (10 : ℚ) ^ frac.length)
    else none
  | _ => none

/-- Python `float(str)`: strip whitespace, optional sign, decimal literal. -/
def pyFloatParse (s : String) : Option ℚ :=
  match pyStrip s.data with
  | '-' :: r => (pyFloatParseCore r).map (fun q => -q)
  | '+' :: r => pyFloatParseCore r
  | r => pyFloatParseCore r

/-- Python `float(x)` applied to a `DictReader` cell: `TypeError` on a
missing (`None`) cell, `ValueError` on a non-numeric string. -/
def pyFloat : Option String → Except String ℚ
  | none => .error "TypeError: float() argument must be a string or a real number, not NoneType"
  | some s =>
    match pyFloatParse s with
    | some q => .ok q
    | none => .error ("ValueError: could not convert string to float: " ++ s)

/-- One loop iteration of `load_word_segments`: build the `WordSegment`,
evaluating `row['word']`, `float(row['start'])`, `float(row['end'])`,
`float(row['conf'])` in Python's left-to-right argument order. -/
def loadRow (header row : List String) : Except String LoadedWordSegment := do
  let w ← dictGet header row "word"
  let s ← pyFloat (← dictGet header row "start")
  let e ← pyFloat (← dictGet header row "end")
  let c ← pyFloat (← dictGet header row "conf")
  pure ⟨w, s, e, c⟩

/-- `SentenceMatcher.load_word_segments` over an already-split CSV file
(header row plus data rows).  `csv.DictReader` skips fully empty rows; the
loop appends one loaded segment per remaining row, and an uncaught
exception aborts the whole call with no partial output, which the `Except`
monad models. -/
def loadWordSegments (header : List String) :
    List (List String) → Except String (List LoadedWordSegment)
  | [] => .ok []
  | row :: rows =>
    if row.isEmpty then loadWordSegments header rows
    else do
      let seg ← loadRow header row
      let rest ← loadWordSegments header rows
      pure (seg :: rest)

/-! ## whisper_service.py and audio_analyzer.py -/

/-- The `Word` dataclass of `whisper_service.py` / `audio_analyzer.py`. -/
structure Word where
  text : List Char
  start : ℚ
  end_ : ℚ
  probability : ℚ
deriving DecidableEq, Inhabited

/-- One sentence produced by the external spaCy splitter: its reported text
and character span (`sent.text`, `sent.start_char`, `sent.end_char`). -/
structure SentSpan where
  text : List Char
  startChar : Nat
  endChar : Nat
deriving DecidableEq

/-- The `SentenceSegment` dataclass. -/
structure SentenceSegment where
  text : List Char
  start : ℚ
  end_ : ℚ
  words : List Word
deriving DecidableEq

/-- The `full_text` accumulator of `_segment_into_sentences`
(whisper_service variant): every word text followed by one space. -/
def flattenText : List Word → List Char
  | [] => []
  | w :: ws => w.text ++ ' ' :: flattenText ws

/-- The `word_mapping` dictionary of `_segment_into_sentences`: each word
keyed by `len(full_text)` at the moment it is appended, i.e. the running
offset, which grows by `len(word.text) + 1` per word.  Entries are listed
in insertion order, as Python dict iteration yields them. -/
def wordOffsets (off : Nat) : List Word → List (Nat × Word)
  | [] => []
  | w :: ws => (off, w) :: wordOffsets (off + w.text.length + 1) ws

/-- The containment test of both `_segment_into_sentences` variants:
`pos >= sent_start and pos + len(word.text) <= sent_end`. -/
def containedIn (s : SentSpan) (pos : Nat) (w : Word) : Bool :=
  decide (s.startChar ≤ pos) && decide (pos + w.text.length ≤ s.endChar)

/-- The word selection of the whisper_service variant: first the
`relevant_positions` filter (`pos <= sent_end`), then the containment
test. -/
def sentencePairs (mapping : List (Nat × Word)) (s : SentSpan) :
    List (Nat × Word) :=
  (mapping.filter (fun pw => decide (pw.1 ≤ s.endChar))).filter
    (fun pw => containedIn s pw.1 pw.2)

/-- `WhisperService._segment_into_sentences` with the spaCy sentence spans
supplied by the external splitter as input: skip sentences whose stripped
text is empty, select the contained words, and emit a `SentenceSegment`
exactly when the selection is non-empty. -/
def segmentIntoSentences (allWords : List Word) (sents : List SentSpan) :
    List SentenceSegment :=
  let mapping := wordOffsets 0 allWords
  sents.filterMap (fun s =>
    let sentText := pyStrip s.text
    if sentText.isEmpty then none
    else
      match sentencePairs mapping s with
      | [] => none
      | pw :: rest =>
        let ws := (pw :: rest).map Prod.snd
        some ⟨sentText, pw.2.start, (ws.getLastD pw.2).end_, ws⟩)

/-- The word-selection loop of `WhisperAnalyzer._segment_into_sentences`
(audio_analyzer variant): walk the words with a running `current_pos`,
keep the contained ones, and break once `current_pos` has moved past
`sent_end_char`. -/
def sentenceWordsA (s : SentSpan) : Nat → List Word → List Word
  | _, [] => []
  | pos, w :: ws =>
    let nextPos := pos + w.text.length + 1
    let rest := if s.endChar < nextPos then [] else sentenceWordsA s nextPos ws
    if containedIn s pos w then w :: rest else rest

/-- `WhisperAnalyzer._segment_into_sentences` (audio_analyzer variant):
no empty-text skip; emit exactly when the selected word list is
non-empty. -/
def segmentIntoSentencesA (allWords : List Word) (sents : List SentSpan) :
    List SentenceSegment :=
  sents.filterMap (fun s =>
    match sentenceWordsA s 0 allWords with
    | [] => none
    | w :: rest => some ⟨pyStrip s.text, w.start, ((w :: rest).getLastD w).end_, w :: rest⟩)

/-! ## views.py: _clean_word and _filter_word; tasks.py: filter_word -/

/-- A `\w` character of the cleaning regex (the cleaned text is ASCII-only
after the encode step, so alphanumerics and underscore). -/
def isWordChar (c : Char) : Bool := c.isAlphanum || c = '_'

/-- Characters kept by the character-class substitution of `_clean_word`:
word characters, whitespace, apostrophes and hyphens. -/
def keepChar (c : Char) : Bool :=
  isWordChar c || c.isWhitespace || c = apos || c = '-'

/-- The unicodedata NFKD normalization followed by the ASCII encode in
ignore mode, per character.  Modelled from the NFKD-decompose-then-drop-non-ASCII
composition, with the decomposition table restricted to the accented
letters this development exercises: ASCII characters pass through, a
precomposed e-acute decomposes to `e` plus a combining accent that the
ASCII encode drops, and other non-ASCII characters are dropped. -/
def asciiFold (c : Char) : List Char :=
  if c.toNat < 128 then [c]
  else if c = 'é' then ['e']
  else []

/-- The edge-run substitution for a single target character: drop the
maximal leading and trailing runs of that character. -/
def stripRuns (target : Char) (s : List Char) : List Char :=
  ((s.dropWhile (fun c => c = target)).reverse.dropWhile
    (fun c => c = target)).reverse

/-- The apostrophe substitution of `_clean_word`: collapse every run of
apostrophes to a single apostrophe. -/
def collapseApos : List Char → List Char
  | [] => []
  | [c] => [c]
  | a :: b :: rest =>
    if a = apos && b = apos then collapseApos (b :: rest)
    else a :: collapseApos (b :: rest)

/-- Python `str.split()` (no separator): the maximal runs of
non-whitespace characters. -/
def pySplit (s : List Char) : List (List Char) :=
  (s.foldr (fun c acc =>
    if c.isWhitespace then [] :: acc
    else
      match acc with
      | [] => [[c]]
      | w :: ws => (c :: w) :: ws) []).filter (fun w => !w.isEmpty)

/-- `ArticleViewSet._clean_word` on characters: lowercase, strip
diacritics to ASCII, drop characters outside word/whitespace/apostrophe/
hyphen, strip edge hyphen runs, collapse apostrophe runs and strip edge
apostrophes, then join the whitespace-split words with single spaces. -/
def cleanChars (s : List Char) : List Char :=
  let s1 := s.map Char.toLower
  let s2 := s1.flatMap asciiFold
  let s3 := s2.filter keepChar
  let s4 := stripRuns '-' s3
  let s5 := collapseApos s4
  let s6 := stripRuns apos s5
  List.intercalate [' '] (pySplit s6)

/-- `ArticleViewSet._clean_word`. -/
def cleanWord (w : String) : String := String.mk (cleanChars w.data)

/-- The scenario input word: cafe with an acute accent on the e, an
apostrophe-s, and a trailing hyphen. -/
def cafeRaw : String := String.mk ['c', 'a', 'f', 'é', apos, 's', '-']

/-- Its cleaned form: lowercase, diacritic stripped, trailing hyphen
removed, interior apostrophe kept. -/
def cafeCleaned : String := String.mk ['c', 'a', 'f', 'e', apos, 's']

/-- One spaCy token as the filter gates consume it: surface text,
part-of-speech tag, stopword flag and lemma. -/
structure SpacyTok where
  text : String
  pos_ : String
  is_stop : Bool
  lemma_ : String
deriving DecidableEq

/-- The `exclude_pos` set shared by `views.py` and `tasks.py`. -/
def excludePos : List String :=
  ["PRON", "NUM", "PROPN", "SPACE", "PUNCT", "SYM", "X"]

/-- Apostrophe as a one-character string. -/
def aposStr : String := String.mk [apos]

/-- The per-token rendering inside the not-a-single-word diagnostic: the
source wraps each token text in apostrophes and appends the part of
speech in parentheses. -/
def renderTok (t : SpacyTok) : String :=
  aposStr ++ t.text ++ aposStr ++ " (" ++ t.pos_ ++ ")"

/-- The not-a-single-word rejection reason shared by both gates. -/
def notSingleReason (doc : List SpacyTok) : String :=
  "不是单个词 (tokens: " ++ String.intercalate ", " (doc.map renderTok) ++ ")"

/-- Python `str.isalpha()`. -/
def pyIsAlpha (s : String) : Bool := !s.isEmpty && s.data.all Char.isAlpha

/-- `WordProcessService.filter_word` of `tasks.py`, with the spaCy pipeline
injected as `analyze`: run the analyzer on `word_text.strip().lower()` and
apply the single-token, part-of-speech, stopword and lemma-length gates;
on acceptance return the lemma. -/
def tasksFilterWord (analyze : String → List SpacyTok) (wordText : String) :
    Bool × String :=
  let doc := analyze ((String.mk (pyStrip wordText.data)).toLower)
  match doc with
  | [t] =>
    if t.pos_ ∈ excludePos then (false, "词性被排除 (POS: " ++ t.pos_ ++ ")")
    else if t.is_stop then (false, "是停用词")
    else if t.lemma_.length ≤ 1 then
      (false, "词太短 (length: " ++ toString t.lemma_.length ++ ")")
    else (true, t.lemma_)
  | _ => (false, notSingleReason doc)

/-- The linguistic-analysis part of `ArticleViewSet._filter_word` (the code
after the cleaning-stage emptiness check): single-token, part-of-speech,
stopword, lemma-isalpha and lemma-length gates; on acceptance the source
returns the constant string `"accepted"`. -/
def viewsAnalyzePhase (analyze : String → List SpacyTok) (cleaned : String) :
    Bool × String :=
  let doc := analyze cleaned
  match doc with
  | [t] =>
    if t.pos_ ∈ excludePos then (false, "词性被排除 (POS: " ++ t.pos_ ++ ")")
    else if t.is_stop then (false, "是停用词")
    else if !pyIsAlpha t.lemma_ then (false, "包含非字母字符")
    else if t.lemma_.length ≤ 1 then
      (false, "词太短 (length: " ++ toString t.lemma_.length ++ ")")
    else (true, "accepted")
  | _ => (false, notSingleReason doc)

/-- `ArticleViewSet._filter_word`: clean, reject when the cleaned text is
empty, otherwise run the linguistic-analysis phase. -/
def viewsFilterWord (analyze : String → List SpacyTok) (wordText : String) :
    Bool × String :=
  let cleaned := cleanWord wordText
  if cleaned.isEmpty then (false, "清理后为空")
  else viewsAnalyzePhase analyze cleaned

/-! ## Theorems

Helper lemmas first, then, per claim, one counterexample (where the claim
as stated fails), one theorem and, where the theorem carries hypotheses,
one witness instantiating it at a concrete input. -/

/-- The strict-improvement fold of `find_matching_span` computes the first
candidate attaining the maximal ratio, guarded by the running threshold. -/
theorem foldl_scanStep_eq (l : List (ℚ × MatchResult)) :
    ∀ (b : ℚ) (opt : Option MatchResult),
      l.foldl scanStep (b, opt) =
        match argmaxFirst l with
        | none => (b, opt)
        | some d => if b < d.1 then (d.1, some d.2) else (b, opt) := by
  induction l with
  | nil => intro b opt; rfl
  | cons c cs ih =>
    intro b opt
    have hstep : scanStep (b, opt) c = if b < c.1 then (c.1, some c.2) else (b, opt) := rfl
    rw [List.foldl_cons, hstep]
    by_cases hbc : b < c.1
    · rw [if_pos hbc, ih c.1 (some c.2)]
      cases hcs : argmaxFirst cs with
      | none => simp [argmaxFirst, hcs, hbc]
      | some d =>
        by_cases hcd : c.1 < d.1
        · simp only [argmaxFirst, hcs, if_pos hcd]
          rw [if_pos (hbc.trans hcd)]
        · simp only [argmaxFirst, hcs, if_neg hcd]
          rw [if_pos hbc]
    · rw [if_neg hbc, ih b opt]
      cases hcs : argmaxFirst cs with
      | none => simp [argmaxFirst, hcs, hbc]
      | some d =>
        by_cases hcd : c.1 < d.1
        · simp only [argmaxFirst, hcs, if_pos hcd]
        · simp only [argmaxFirst, hcs, if_neg hcd]
          have hbd : ¬ b < d.1 := not_lt.mpr ((not_lt.mp hcd).trans (not_lt.mp hbc))
          rw [if_neg hbd, if_neg hbc]

/-- The first-maximum candidate is a member of the list. -/
theorem argmaxFirst_mem {l : List (ℚ × MatchResult)} :
    ∀ {d : ℚ × MatchResult}, argmaxFirst l = some d → d ∈ l := by
  induction l with
  | nil => intro d h; cases h
  | cons c cs ih =>
    intro d h
    rw [argmaxFirst] at h
    cases hcs : argmaxFirst cs with
    | none =>
      rw [hcs] at h
      have hdc : d = c := (Option.some.inj h).symm
      rw [hdc]
      exact List.mem_cons_self _ _
    | some e =>
      rw [hcs] at h
      dsimp only at h
      by_cases hce : c.1 < e.1
      · rw [if_pos hce] at h
        have hde : d = e := (Option.some.inj h).symm
        rw [hde]
        exact List.mem_cons_of_mem _ (ih hcs)
      · rw [if_neg hce] at h
        have hdc : d = c := (Option.some.inj h).symm
        rw [hdc]
        exact List.mem_cons_self _ _

/-- The first-maximum candidate bounds every ratio in the list. -/
theorem argmaxFirst_le {l : List (ℚ × MatchResult)} :
    ∀ {d : ℚ × MatchResult}, argmaxFirst l = some d → ∀ c ∈ l, c.1 ≤ d.1 := by
  induction l with
  | nil => intro d h; cases h
  | cons c cs ih =>
    intro d h
    rw [argmaxFirst] at h
    cases hcs : argmaxFirst cs with
    | none =>
      rw [hcs] at h
      have hdc : d = c := (Option.some.inj h).symm
      have hcsnil : cs = [] := by
        cases cs with
        | nil => rfl
        | cons a as =>
          rw [argmaxFirst] at hcs
          cases has : argmaxFirst as with
          | none => rw [has] at hcs; cases hcs
          | some e =>
            rw [has] at hcs
            dsimp only at hcs
            by_cases hae : a.1 < e.1
            · rw [if_pos hae] at hcs; cases hcs
            · rw [if_neg hae] at hcs; cases hcs
      intro x hx
      rcases List.mem_cons.mp hx with hx | hx
      · exact le_of_eq (by rw [hx, hdc])
      · cases hcsnil ▸ hx
    | some e =>
      rw [hcs] at h
      dsimp only at h
      by_cases hce : c.1 < e.1
      · rw [if_pos hce] at h
        have hde : d = e := (Option.some.inj h).symm
        intro x hx
        rcases List.mem_cons.mp hx with hx | hx
        · rw [hx, hde]; exact le_of_lt hce
        · rw [hde]; exact ih hcs x hx
      · rw [if_neg hce] at h
        have hdc : d = c := (Option.some.inj h).symm
        intro x hx
        rcases List.mem_cons.mp hx with hx | hx
        · exact le_of_eq (by rw [hx, hdc])
        · rw [hdc]; exact le_trans (ih hcs x hx) (le_of_not_lt hce)

/-- `argmaxFirst` is `none` exactly on the empty list. -/
theorem argmaxFirst_eq_none {l : List (ℚ × MatchResult)} :
    argmaxFirst l = none ↔ l = [] := by
  constructor
  · intro h
    cases l with
    | nil => rfl
    | cons c cs =>
      rw [argmaxFirst] at h
      cases hcs : argmaxFirst cs with
      | none => rw [hcs] at h; cases h
      | some e =>
        rw [hcs] at h
        dsimp only at h
        by_cases hce : c.1 < e.1
        · rw [if_pos hce] at h; cases h
        · rw [if_neg hce] at h; cases h
  · intro h; rw [h]; rfl

/-- `find_matching_span` on non-empty inputs: the result is the payload of
the first maximal-ratio candidate when that ratio strictly exceeds the
threshold, and `None` otherwise. -/
theorem findMatchingSpan_char (ratio : List Char → List Char → ℚ)
    (tt : List (List Char)) (segs : List WordSegment) (mr : ℚ) (ws : Nat)
    (h1 : tt ≠ []) (h2 : segs ≠ []) :
    findMatchingSpan ratio tt segs mr ws =
      match argmaxFirst (candidates ratio (targetTextOf tt) segs ws) with
      | none => none
      | some d => if mr < d.1 then some d.2 else none := by
  unfold findMatchingSpan
  rw [if_neg (by simp [h1, h2])]
  rw [foldl_scanStep_eq]
  cases argmaxFirst (candidates ratio (targetTextOf tt) segs ws) with
  | none => rfl
  | some d =>
    dsimp only
    by_cases h : mr < d.1
    · rw [if_pos h, if_pos h]
    · rw [if_neg h, if_neg h]

/-- Membership in `jRange`: exactly the indices `i < j ≤ n` with
`j < i + window_size`, i.e. windows of at most `window_size − 1` tokens. -/
theorem mem_jRange {i ws n j : Nat} :
    j ∈ jRange i ws n ↔ i < j ∧ j < i + ws ∧ j ≤ n := by
  unfold jRange
  rw [List.mem_range'_1]
  rcases Nat.le_total (i + ws) (n + 1) with h | h
  · rw [Nat.min_eq_left h]; omega
  · rw [Nat.min_eq_right h]; omega

/-- Membership in the candidate list of `find_matching_span`. -/
theorem mem_candidates {ratio : List Char → List Char → ℚ} {tt : List Char}
    {segs : List WordSegment} {ws : Nat} {c : ℚ × MatchResult} :
    c ∈ candidates ratio tt segs ws ↔
      ∃ i j, i < segs.length ∧ j ∈ jRange i ws segs.length ∧
        c = candidate ratio tt segs i j := by
  unfold candidates
  simp only [List.mem_flatMap, List.mem_map, List.mem_range]
  constructor
  · rintro ⟨i, hi, j, hj, rfl⟩
    exact ⟨i, j, hi, hj, rfl⟩
  · rintro ⟨i, j, hi, hj, rfl⟩
    exact ⟨i, hi, j, hj, rfl⟩

/-- The payload of a candidate records its own ratio. -/
theorem ratio_snd_of_mem_candidates {ratio : List Char → List Char → ℚ}
    {tt : List Char} {segs : List WordSegment} {ws : Nat}
    {c : ℚ × MatchResult} (h : c ∈ candidates ratio tt segs ws) :
    c.2.ratio = c.1 := by
  rcases mem_candidates.mp h with ⟨i, j, _, _, rfl⟩
  rfl

/-- C1 is false as stated: the inner loop
`range(i + 1, min(i + window_size, len(segments) + 1))` stops one short of
the claimed interval `(i, min(i + window_size, n)]`.  With `window_size = 2`
over `n = 3` tokens and start index `i = 0`, the code scores only `j = 1`
(a one-token window), while the claim requires `j ∈ {1, 2}` (windows of up
to two tokens). -/
theorem c1_window_range_counterexample : jRange 0 2 3 ≠ claimJRange 0 2 3 := by
  decide

/-- C1 (amended): for every start index `i`, the candidate end indices `j`
range over `(i, min(i + window_size - 1, n)]` — windows of up to
`window_size − 1` tokens, not `window_size` — and every scored candidate is
`candidate` of such a pair, whose window text is by construction the
single-space join of the lowercased verbatim texts of `tokens[i:j]`,
compared against `target_text`. -/
theorem c1_window_range :
    (∀ i ws n j : Nat, j ∈ jRange i ws n ↔ i < j ∧ j < i + ws ∧ j ≤ n) ∧
    (∀ (ratio : List Char → List Char → ℚ) (tt : List Char)
       (segs : List WordSegment) (ws : Nat) (c : ℚ × MatchResult),
       c ∈ candidates ratio tt segs ws ↔
         ∃ i j, i < segs.length ∧ i < j ∧ j < i + ws ∧ j ≤ segs.length ∧
           c = candidate ratio tt segs i j) := by
  constructor
  · intro i ws n j
    exact mem_jRange
  · intro ratio tt segs ws c
    rw [mem_candidates]
    constructor
    · rintro ⟨i, j, hi, hj, rfl⟩
      rcases mem_jRange.mp hj with ⟨h1, h2, h3⟩
      exact ⟨i, j, hi, h1, h2, h3, rfl⟩
    · rintro ⟨i, j, hi, h1, h2, h3, rfl⟩
      exact ⟨i, j, hi, mem_jRange.mpr ⟨h1, h2, h3⟩, rfl⟩

/-- Witness for C1 (amended) at a concrete input: `j = 1` is a scanned end
index for `i = 0`, `window_size = 2`, `n = 3`. -/
theorem c1_window_range_witness : (1 : Nat) ∈ jRange 0 2 3 :=
  (c1_window_range.1 0 2 3 1).mpr (by decide)

/-- C3: `find_matching_span` returns `None` whenever the target token list
or the segment list is empty; on non-empty inputs it returns `None` exactly
when no candidate window ratio strictly exceeds `min_ratio`; and a
successful result is exactly
`{start: segments[i].start, end: segments[j-1].end, ratio}` for a scanned
window `(i, j)` whose ratio strictly exceeds `min_ratio` and is maximal
among all candidates.  Totality of the embedding (an `Option`-valued
function defined on all inputs, including the empty token stream) models
the never-raises part. -/
theorem c3_none_and_success_shape :
    ∀ (ratio : List Char → List Char → ℚ) (tt : List (List Char))
      (segs : List WordSegment) (mr : ℚ) (ws : Nat),
      ((tt = [] ∨ segs = []) → findMatchingSpan ratio tt segs mr ws = none) ∧
      (tt ≠ [] → segs ≠ [] →
        (findMatchingSpan ratio tt segs mr ws = none ↔
          ∀ c ∈ candidates ratio (targetTextOf tt) segs ws, c.1 ≤ mr)) ∧
      (∀ m, findMatchingSpan ratio tt segs mr ws = some m →
        mr < m.ratio ∧
        (∀ c ∈ candidates ratio (targetTextOf tt) segs ws, c.1 ≤ m.ratio) ∧
        ∃ i j, i < segs.length ∧ i < j ∧ j < i + ws ∧ j ≤ segs.length ∧
          m = ⟨(segs.getD i default).start, (segs.getD (j - 1) default).end_,
               ratio (targetTextOf tt) (windowText segs i j)⟩) := by
  intro ratio tt segs mr ws
  refine ⟨fun h => by unfold findMatchingSpan; rw [if_pos h], ?_, ?_⟩
  · intro h1 h2
    rw [findMatchingSpan_char ratio tt segs mr ws h1 h2]
    cases hd : argmaxFirst (candidates ratio (targetTextOf tt) segs ws) with
    | none =>
      have : candidates ratio (targetTextOf tt) segs ws = [] :=
        argmaxFirst_eq_none.mp hd
      simp [this]
    | some d =>
      dsimp only
      by_cases hlt : mr < d.1
      · rw [if_pos hlt]
        constructor
        · intro h; cases h
        · intro hall
          exact absurd (hall d (argmaxFirst_mem hd)) (not_le.mpr hlt)
      · rw [if_neg hlt]
        refine ⟨fun _ c hc => ?_, fun _ => rfl⟩
        exact le_trans (argmaxFirst_le hd c hc) (le_of_not_lt hlt)
  · intro m hm
    have h1 : tt ≠ [] := by
      intro h
      rw [show findMatchingSpan ratio tt segs mr ws = none from by
        unfold findMatchingSpan; rw [if_pos (Or.inl h)]] at hm
      cases hm
    have h2 : segs ≠ [] := by
      intro h
      rw [show findMatchingSpan ratio tt segs mr ws = none from by
        unfold findMatchingSpan; rw [if_pos (Or.inr h)]] at hm
      cases hm
    rw [findMatchingSpan_char ratio tt segs mr ws h1 h2] at hm
    cases hd : argmaxFirst (candidates ratio (targetTextOf tt) segs ws) with
    | none => rw [hd] at hm; cases hm
    | some d =>
      rw [hd] at hm
      dsimp only at hm
      by_cases hlt : mr < d.1
      · rw [if_pos hlt] at hm
        have hmd : m = d.2 := (Option.some.inj hm).symm
        have hdmem := argmaxFirst_mem hd
        have hratio : d.2.ratio = d.1 := ratio_snd_of_mem_candidates hdmem
        have hmr : m.ratio = d.1 := by rw [hmd, hratio]
        refine ⟨by rw [hmr]; exact hlt, ?_, ?_⟩
        · intro c hc
          rw [hmr]
          exact argmaxFirst_le hd c hc
        · rcases mem_candidates.mp hdmem with ⟨i, j, hi, hj, hcand⟩
          rcases mem_jRange.mp hj with ⟨hj1, hj2, hj3⟩
          exact ⟨i, j, hi, hj1, hj2, hj3, by rw [hmd, hcand]; rfl⟩
      · rw [if_neg hlt] at hm
        cases hm

/-- Witness for C3 at a concrete input: the empty target token list yields
no match. -/
theorem c3_none_and_success_shape_witness :
    findMatchingSpan (fun _ _ => 0) [] [⟨['a'], 0, 1, 1⟩] 0 5 = none :=
  (c3_none_and_success_shape (fun _ _ => 0) [] [⟨['a'], 0, 1, 1⟩] 0 5).1
    (Or.inl rfl)

/-- C5: raising `min_ratio` cannot change which window wins, only whether a
match is returned.  If the scan at threshold `m` returns a match, then at
any threshold `m'` with `m ≤ m'` the scan returns the very same match when
`m' < ratio`, and `None` when `ratio ≤ m'`. -/
theorem c5_threshold_monotonicity :
    ∀ (ratio : List Char → List Char → ℚ) (tt : List (List Char))
      (segs : List WordSegment) (ws : Nat) (mr mr' : ℚ) (m : MatchResult),
      findMatchingSpan ratio tt segs mr ws = some m → mr ≤ mr' →
      (mr' < m.ratio → findMatchingSpan ratio tt segs mr' ws = some m) ∧
      (m.ratio ≤ mr' → findMatchingSpan ratio tt segs mr' ws = none) := by
  intro ratio tt segs ws mr mr' m hm _
  have h1 : tt ≠ [] := by
    intro h
    rw [show findMatchingSpan ratio tt segs mr ws = none from by
      unfold findMatchingSpan; rw [if_pos (Or.inl h)]] at hm
    cases hm
  have h2 : segs ≠ [] := by
    intro h
    rw [show findMatchingSpan ratio tt segs mr ws = none from by
      unfold findMatchingSpan; rw [if_pos (Or.inr h)]] at hm
    cases hm
  rw [findMatchingSpan_char ratio tt segs mr ws h1 h2] at hm
  cases hd : argmaxFirst (candidates ratio (targetTextOf tt) segs ws) with
  | none => rw [hd] at hm; cases hm
  | some d =>
    rw [hd] at hm
    dsimp only at hm
    by_cases hlt : mr < d.1
    · rw [if_pos hlt] at hm
      have hmd : m = d.2 := (Option.some.inj hm).symm
      have hmr : m.ratio = d.1 := by
        rw [hmd, ratio_snd_of_mem_candidates (argmaxFirst_mem hd)]
      constructor
      · intro hlt'
        rw [findMatchingSpan_char ratio tt segs mr' ws h1 h2, hd]
        dsimp only
        rw [if_pos (hmr ▸ hlt'), hmd]
      · intro hle
        rw [findMatchingSpan_char ratio tt segs mr' ws h1 h2, hd]
        dsimp only
        rw [if_neg (not_lt.mpr (hmr ▸ hle))]
    · rw [if_neg hlt] at hm
      cases hm

/-- Witness for C5 at a concrete input: a match found at threshold 1 with
ratio 5 is returned unchanged at the raised threshold 3. -/
theorem c5_threshold_monotonicity_witness :
    findMatchingSpan (fun _ _ => 5) [['a']] [⟨['a'], 0, 1, 1⟩] 3 2 =
      some ⟨0, 1, 5⟩ :=
  (c5_threshold_monotonicity (fun _ _ => 5) [['a']] [⟨['a'], 0, 1, 1⟩] 2 1 3
    ⟨0, 1, 5⟩ (by decide) (by decide)).1 (by decide)

/-- C9: the Fuzzy Span Aligner is deterministic — two runs on equal
similarity collaborators, equal target token lists, equal segment lists and
equal configuration return equal results (same `None`-ness, and the same
`start`, `end`, `ratio` when a match is returned).  The embedding is a pure
function of exactly these arguments, so no state outside them can enter. -/
theorem c9_determinism :
    ∀ (r1 r2 : List Char → List Char → ℚ) (tt1 tt2 : List (List Char))
      (s1 s2 : List WordSegment) (mr1 mr2 : ℚ) (ws1 ws2 : Nat),
      r1 = r2 → tt1 = tt2 → s1 = s2 → mr1 = mr2 → ws1 = ws2 →
      findMatchingSpan r1 tt1 s1 mr1 ws1 = findMatchingSpan r2 tt2 s2 mr2 ws2 := by
  intro r1 r2 tt1 tt2 s1 s2 mr1 mr2 ws1 ws2 h1 h2 h3 h4 h5
  rw [h1, h2, h3, h4, h5]

/-- Witness for C9 at a concrete input. -/
theorem c9_determinism_witness :
    findMatchingSpan (fun _ _ => 1) [['a']] [⟨['a'], 0, 1, 1⟩] 0 2 =
      findMatchingSpan (fun _ _ => 1) [['a']] [⟨['a'], 0, 1, 1⟩] 0 2 :=
  c9_determinism (fun _ _ => 1) (fun _ _ => 1) [['a']] [['a']]
    [⟨['a'], 0, 1, 1⟩] [⟨['a'], 0, 1, 1⟩] 0 0 2 2 rfl rfl rfl rfl rfl

/-- `takeWhile (≠ colon)` of a colon-free prefix followed by a colon is
that prefix. -/
theorem takeWhile_ne_colon_append {p rest : List Char} (hp : ':' ∉ p) :
    (p ++ ':' :: rest).takeWhile (fun c => c ≠ ':') = p := by
  induction p with
  | nil => simp [List.takeWhile_cons]
  | cons a as ih =>
    have ha : a ≠ ':' := fun h => hp (h ▸ List.mem_cons_self a as)
    have has : ':' ∉ as := fun h => hp (List.mem_cons_of_mem a h)
    simp only [List.cons_append, List.takeWhile_cons]
    rw [if_pos (by simp [ha]), ih has]

/-- `takeWhile (≠ colon)` of a colon-free list is the whole list. -/
theorem takeWhile_ne_colon_all {s : List Char} (hs : ':' ∉ s) :
    s.takeWhile (fun c => c ≠ ':') = s := by
  induction s with
  | nil => rfl
  | cons a as ih =>
    have ha : a ≠ ':' := fun h => hs (h ▸ List.mem_cons_self a as)
    have has : ':' ∉ as := fun h => hs (List.mem_cons_of_mem a h)
    simp only [List.takeWhile_cons, decide_eq_true_eq]
    rw [if_pos ha, ih has]

/-- C10 is false as stated: on a sentence whose first character is the
colon, the anchored pattern `^[^:]+:` does not match (it needs at least one
non-colon character before the colon), so nothing is deleted — the claimed
unconditional deletion up to and including the first colon would have
produced `"abc"` from `":abc"`, but the code leaves `":abc"` intact. -/
theorem c10_speaker_label_counterexample :
    normalizePreNLP ":abc".data = ":abc".data ∧
    normalizePreNLP ":abc".data ≠ "abc".data := by
  decide

/-- C10 (amended): `get_normalized_tokens` deletes everything up to and
including the first colon whenever at least one character precedes that
colon; a sentence with no colon, or one that begins with the colon, passes
through unchanged — and in the colon-free case the whole normalization is
exactly trimming plus lowercasing. -/
theorem c10_speaker_label :
    (∀ (p rest : List Char), p ≠ [] → ':' ∉ p →
      removeSpeakerLabel (p ++ ':' :: rest) = rest) ∧
    (∀ s : List Char, ':' ∉ s → removeSpeakerLabel s = s) ∧
    (∀ rest : List Char, removeSpeakerLabel (':' :: rest) = ':' :: rest) ∧
    (∀ s : List Char, ':' ∉ s →
      normalizePreNLP s = (pyStrip s).map Char.toLower) := by
  have hall : ∀ s : List Char, ':' ∉ s → removeSpeakerLabel s = s := by
    intro s hs
    unfold removeSpeakerLabel
    rw [takeWhile_ne_colon_all hs]
    rw [if_neg (by omega)]
  refine ⟨?_, hall, ?_, ?_⟩
  · intro p rest hp hcp
    unfold removeSpeakerLabel
    rw [takeWhile_ne_colon_append hcp]
    have hlen : p.length < (p ++ ':' :: rest).length := by
      rw [List.length_append, List.length_cons]
      omega
    rw [if_pos ⟨List.length_pos.mpr hp, hlen⟩]
    rw [List.drop_append]
    rfl
  · intro rest
    unfold removeSpeakerLabel
    rw [List.takeWhile_cons]
    simp only [decide_eq_true_eq]
    rw [if_neg (by simp)]
  · intro s hs
    unfold normalizePreNLP
    rw [hall s hs]

/-- Witness for C10 (amended) at a concrete input: `"a:b"` loses its
one-character speaker label. -/
theorem c10_speaker_label_witness :
    removeSpeakerLabel ['a', ':', 'b'] = ['b'] :=
  c10_speaker_label.1 ['a'] ['b'] (by decide) (by decide)

/-- Bind of an `Except` error is that error. -/
theorem except_bind_error {β γ : Type} (e : String) (k : β → Except String γ) :
    (Except.error e >>= k) = Except.error e := rfl

/-- Bind of an `Except` success applies the continuation. -/
theorem except_bind_ok {β γ : Type} (b : β) (k : β → Except String γ) :
    (Except.ok b >>= k) = k b := rfl

/-- A successful `DictReader` lookup means the key is a header column. -/
theorem dictGet_ok_mem {header row : List String} {key : String}
    {v : Option String} (h : dictGet header row key = .ok v) : key ∈ header := by
  unfold dictGet at h
  cases hf : header.findIdx? (fun h => h = key) with
  | none => rw [hf] at h; cases h
  | some i =>
    by_contra hk
    have hnone : header.findIdx? (fun h => h = key) = none :=
      List.findIdx?_eq_none_iff.mpr (fun x hx =>
        decide_eq_false (fun hxk => hk (hxk ▸ hx)))
    rw [hnone] at hf
    cases hf

/-- A `loadRow` that returns a segment looked every one of the four
required columns up successfully. -/
theorem loadRow_ok_keys {header row : List String} {seg : LoadedWordSegment}
    (h : loadRow header row = .ok seg) :
    "word" ∈ header ∧ "start" ∈ header ∧ "end" ∈ header ∧ "conf" ∈ header := by
  unfold loadRow at h
  cases hw : dictGet header row "word" with
  | error e => rw [hw, except_bind_error] at h; cases h
  | ok w =>
    rw [hw, except_bind_ok] at h
    cases hs0 : dictGet header row "start" with
    | error e => rw [hs0, except_bind_error] at h; cases h
    | ok s0 =>
      rw [hs0, except_bind_ok] at h
      cases hs : pyFloat s0 with
      | error e => rw [hs, except_bind_error] at h; cases h
      | ok sq =>
        rw [hs, except_bind_ok] at h
        cases he0 : dictGet header row "end" with
        | error e => rw [he0, except_bind_error] at h; cases h
        | ok e0 =>
          rw [he0, except_bind_ok] at h
          cases he : pyFloat e0 with
          | error e => rw [he, except_bind_error] at h; cases h
          | ok eq0 =>
            rw [he, except_bind_ok] at h
            cases hc0 : dictGet header row "conf" with
            | error e => rw [hc0, except_bind_error] at h; cases h
            | ok c0 =>
              exact ⟨dictGet_ok_mem hw, dictGet_ok_mem hs0,
                dictGet_ok_mem he0, dictGet_ok_mem hc0⟩

/-- A malformed row anywhere in the input aborts `load_word_segments` with
an error. -/
theorem loadWordSegments_error_of_mem (header : List String) :
    ∀ (rows : List (List String)) (row : List String),
      row ∈ rows → row.isEmpty = false →
      (∃ e, loadRow header row = .error e) →
      ∃ e, loadWordSegments header rows = .error e := by
  intro rows
  induction rows with
  | nil => intro row h; cases h
  | cons a as ih =>
    rintro row hmem hne ⟨e, he⟩
    rcases List.mem_cons.mp hmem with rfl | hmem
    · refine ⟨e, ?_⟩
      rw [loadWordSegments, if_neg (by rw [hne]; exact Bool.false_ne_true)]
      rw [he, except_bind_error]
    · rw [loadWordSegments]
      by_cases ha : a.isEmpty = true
      · rw [if_pos ha]
        exact ih row hmem hne ⟨e, he⟩
      · rw [if_neg ha]
        cases hra : loadRow header a with
        | error e' => exact ⟨e', except_bind_error e' _⟩
        | ok seg =>
          rw [except_bind_ok]
          rcases ih row hmem hne ⟨e, he⟩ with ⟨e', he'⟩
          exact ⟨e', by rw [he', except_bind_error]⟩

/-- C8 is false as stated: a data row missing its trailing `word` field is
malformed, yet `load_word_segments` neither raises nor drops it — the
`DictReader` fills the missing cell with `None` and the row loads silently
as a segment with no text. -/
theorem c8_load_counterexample :
    loadWordSegments ["start", "end", "conf", "word"] [["1", "2", "1"]] =
      .ok [⟨none, 1, 2, 1⟩] := by
  decide

/-- C8 (amended): `load_word_segments` fails fast — a row on which the
construction raises (key missing from the header, or a missing or
non-numeric `start`/`end`/`conf` cell) aborts the whole call with an error
and no partial output, a header lacking any of the four required columns
can never load a non-empty row, and the float conversion error names the
offending value; the one exception is a short row whose only missing field
is `word`: it is silently loaded with `None` in place of the text. -/
theorem c8_load_fail_fast :
    (∀ (header : List String) (rows : List (List String)) (row : List String),
      row ∈ rows → row.isEmpty = false →
      (∃ e, loadRow header row = .error e) →
      ∃ e, loadWordSegments header rows = .error e) ∧
    (∀ (header row : List String) (key : String),
      key ∈ (["word", "start", "end", "conf"] : List String) → key ∉ header →
      ∀ seg, loadRow header row ≠ .ok seg) ∧
    (loadWordSegments ["start", "end", "conf", "word"] [["abc", "2", "1", "w"]] =
      .error "ValueError: could not convert string to float: abc") ∧
    (∀ (s e c : String) (qs qe qc : ℚ),
      pyFloatParse s = some qs → pyFloatParse e = some qe →
      pyFloatParse c = some qc →
      loadWordSegments ["start", "end", "conf", "word"] [[s, e, c]] =
        .ok [⟨none, qs, qe, qc⟩]) := by
  refine ⟨?_, ?_, ?_, ?_⟩
  · intro header rows row hmem hne hrow
    exact loadWordSegments_error_of_mem header rows row hmem hne hrow
  · intro header row key hkey hnot seg h
    have hmem := loadRow_ok_keys h
    simp only [List.mem_cons, List.not_mem_nil, or_false] at hkey
    rcases hkey with rfl | rfl | rfl | rfl
    · exact hnot hmem.1
    · exact hnot hmem.2.1
    · exact hnot hmem.2.2.1
    · exact hnot hmem.2.2.2
  · decide
  · intro s e c qs qe qc hs he hc
    have hrow : ([s, e, c] : List String).isEmpty = false := rfl
    rw [loadWordSegments, if_neg (by rw [hrow]; exact Bool.false_ne_true)]
    have hw : dictGet ["start", "end", "conf", "word"] [s, e, c] "word" =
        .ok none := rfl
    have hs0 : dictGet ["start", "end", "conf", "word"] [s, e, c] "start" =
        .ok (some s) := rfl
    have he0 : dictGet ["start", "end", "conf", "word"] [s, e, c] "end" =
        .ok (some e) := rfl
    have hc0 : dictGet ["start", "end", "conf", "word"] [s, e, c] "conf" =
        .ok (some c) := rfl
    unfold loadRow
    rw [hw, except_bind_ok, hs0, except_bind_ok]
    have hfs : pyFloat (some s) = .ok qs := by simp only [pyFloat, hs]
    have hfe : pyFloat (some e) = .ok qe := by simp only [pyFloat, he]
    have hfc : pyFloat (some c) = .ok qc := by simp only [pyFloat, hc]
    rw [hfs, except_bind_ok, he0, except_bind_ok, hfe, except_bind_ok,
      hc0, except_bind_ok, hfc, except_bind_ok]
    rw [loadWordSegments]
    rfl

/-- Witness for C8 (amended) at a concrete input: a short row missing only
the `word` column loads silently. -/
theorem c8_load_fail_fast_witness :
    loadWordSegments ["start", "end", "conf", "word"] [["3", "4", "1"]] =
      .ok [⟨none, 3, 4, 1⟩] :=
  c8_load_fail_fast.2.2.2 "3" "4" "1" 3 4 1 (by decide) (by decide) (by decide)

/-- Offsets recorded by the mapping are at least the running offset. -/
theorem wordOffsets_le {pos : Nat} {w : Word} :
    ∀ (ws : List Word) (off : Nat), (pos, w) ∈ wordOffsets off ws → off ≤ pos := by
  intro ws
  induction ws with
  | nil => intro off h; cases h
  | cons w0 ws ih =>
    intro off h
    rw [wordOffsets] at h
    rcases List.mem_cons.mp h with h | h
    · exact le_of_eq (congrArg Prod.fst h).symm
    · exact le_trans (by omega) (ih _ h)

/-- A convenient unfolding of `pySlice` at a span of explicit length. -/
theorem pySlice_add (s : List Char) (a n : Nat) :
    pySlice s a (a + n) = (s.drop a).take n := by
  unfold pySlice
  congr 1
  omega

/-- The substring identity on the (untrimmed) flattened text: the slice at
each recorded offset recovers exactly the text of that word. -/
theorem flattenText_slice {pos : Nat} {w : Word} :
    ∀ (ws : List Word) (off : Nat), (pos, w) ∈ wordOffsets off ws →
      pySlice (flattenText ws) (pos - off) (pos - off + w.text.length) = w.text := by
  intro ws
  induction ws with
  | nil => intro off h; cases h
  | cons w0 ws ih =>
    intro off h
    rw [wordOffsets] at h
    rw [pySlice_add]
    rcases List.mem_cons.mp h with h | h
    · have hpos : pos = off := congrArg Prod.fst h
      have hw : w = w0 := congrArg Prod.snd h
      rw [hpos, Nat.sub_self, flattenText, List.drop_zero, hw]
      rw [show w0.text ++ ' ' :: flattenText ws = w0.text ++ (' ' :: flattenText ws) from rfl]
      rw [List.take_append_of_le_length (le_refl _), List.take_length]
    · have hle : off + w0.text.length + 1 ≤ pos := wordOffsets_le ws _ h
      have := ih (off + w0.text.length + 1) h
      rw [pySlice_add] at this
      rw [flattenText]
      rw [show w0.text ++ ' ' :: flattenText ws =
        (w0.text ++ [' ']) ++ flattenText ws from by simp]
      have harith : pos - off =
          (w0.text ++ [' ']).length + (pos - (off + w0.text.length + 1)) := by
        rw [List.length_append]
        simp only [List.length_cons, List.length_nil]
        omega
      rw [harith, List.drop_append]
      exact this

/-- Each recorded offset plus the length of its word stays strictly inside the
flattened text (the trailing separator space follows it). -/
theorem wordOffsets_bound {pos : Nat} {w : Word} :
    ∀ (ws : List Word) (off : Nat), (pos, w) ∈ wordOffsets off ws →
      pos - off + w.text.length + 1 ≤ (flattenText ws).length := by
  intro ws
  induction ws with
  | nil => intro off h; cases h
  | cons w0 ws ih =>
    intro off h
    rw [wordOffsets] at h
    rw [flattenText, List.length_append, List.length_cons]
    rcases List.mem_cons.mp h with h | h
    · have hpos : pos = off := congrArg Prod.fst h
      have hw : w = w0 := congrArg Prod.snd h
      rw [hpos, Nat.sub_self, hw]
      omega
    · have hle : off + w0.text.length + 1 ≤ pos := wordOffsets_le ws _ h
      have := ih (off + w0.text.length + 1) h
      omega

/-- The edge condition under which stripping commutes with the offsets:
every word text is non-empty and neither starts nor ends with
whitespace. -/
def edgeOk (ws : List Word) : Prop :=
  ∀ w ∈ ws, w.text ≠ [] ∧
    (w.text.head?.all fun c => !c.isWhitespace) = true ∧
    (w.text.getLast?.all fun c => !c.isWhitespace) = true

/-- Structure of a non-empty flattened text under the edge condition: a
prefix with non-whitespace first and last characters, followed by the one
trailing separator space. -/
theorem flatten_decomp :
    ∀ (ws : List Word), ws ≠ [] → edgeOk ws →
      ∃ Y : List Char, flattenText ws = Y ++ [' '] ∧
        (∃ c, Y.head? = some c ∧ c.isWhitespace = false) ∧
        (∃ cl, Y.getLast? = some cl ∧ cl.isWhitespace = false) := by
  intro ws
  induction ws with
  | nil => intro h; cases h rfl
  | cons w0 ws ih =>
    intro _ hedge
    have hw0 := hedge w0 (List.mem_cons_self w0 ws)
    obtain ⟨hne, hhead, hlast⟩ := hw0
    obtain ⟨c, hc⟩ : ∃ c, w0.text.head? = some c := by
      cases ht : w0.text with
      | nil => exact absurd ht hne
      | cons a as => exact ⟨a, rfl⟩
    obtain ⟨cl, hcl⟩ : ∃ cl, w0.text.getLast? = some cl := by
      cases ht : w0.text with
      | nil => exact absurd ht hne
      | cons a as => exact ⟨(a :: as).getLast (by simp), List.getLast?_eq_getLast _ _⟩
    have hcw : c.isWhitespace = false := by
      rw [hc] at hhead
      simpa using hhead
    have hclw : cl.isWhitespace = false := by
      rw [hcl] at hlast
      simpa using hlast
    cases ws with
    | nil =>
      refine ⟨w0.text, by simp [flattenText], ⟨c, hc, hcw⟩, ⟨cl, hcl, hclw⟩⟩
    | cons w1 ws' =>
      obtain ⟨Y', hY', ⟨c', hc', hcw'⟩, ⟨cl', hcl', hclw'⟩⟩ :=
        ih (by simp) (fun w hw => hedge w (List.mem_cons_of_mem w0 hw))
      refine ⟨w0.text ++ ' ' :: Y', ?_, ⟨c, ?_, hcw⟩, ⟨cl', ?_, hclw'⟩⟩
      · rw [flattenText, hY']
        simp
      · rw [List.head?_append_of_ne_nil _ hne, hc]
      · have hY'ne : Y' ≠ [] := by
          intro h
          rw [h] at hc'
          cases hc'
        rw [List.getLast?_append_cons]
        cases hYs : Y' with
        | nil => exact absurd hYs hY'ne
        | cons y ys =>
          rw [hYs] at hcl'
          rw [List.getLast?_cons_cons]
          exact hcl'

/-- Under the edge condition, `strip()` removes exactly the one trailing
separator space from the flattened text. -/
theorem pyStrip_flattenText {ws : List Word} (hne : ws ≠ []) (hedge : edgeOk ws) :
    ∃ Y : List Char, flattenText ws = Y ++ [' '] ∧ pyStrip (flattenText ws) = Y := by
  obtain ⟨Y, hY, ⟨c, hc, hcw⟩, ⟨cl, hcl, hclw⟩⟩ := flatten_decomp ws hne hedge
  refine ⟨Y, hY, ?_⟩
  rw [hY]
  unfold pyStrip
  have hYc : ∃ ys, Y = c :: ys := by
    cases hYs : Y with
    | nil => rw [hYs] at hc; cases hc
    | cons y ys =>
      rw [hYs] at hc
      exact ⟨ys, by rw [(Option.some.inj hc)]⟩
  obtain ⟨ys, rfl⟩ := hYc
  rw [List.cons_append, List.dropWhile_cons]
  rw [if_neg (by rw [hcw]; exact Bool.false_ne_true)]
  have hrev1 : (c :: (ys ++ [' '] : List Char)).reverse = ' ' :: (c :: ys).reverse := by
    simp
  rw [hrev1, List.dropWhile_cons, if_pos (by decide)]
  have hrev : (c :: ys : List Char).reverse.head? = some cl := by
    rw [List.head?_reverse]
    exact hcl
  cases hrevs : (c :: ys : List Char).reverse with
  | nil => simp at hrevs
  | cons r rs =>
    rw [hrevs] at hrev
    have hr : Char.isWhitespace r = false := by
      rw [Option.some.inj hrev]
      exact hclw
    rw [List.dropWhile_cons]
    rw [if_neg (by rw [hr]; exact Bool.false_ne_true)]
    rw [← hrevs, List.reverse_reverse]

/-- C4 is false as stated: for the one-token stream whose token text starts
with a space (as speech-recognizer word texts do), the text actually handed
to the sentence splitter is the flattened text with that leading space
stripped, and the recorded offset no longer recovers the token text. -/
theorem c4_flatten_offsets_counterexample :
    wordOffsets 0 [⟨[' ', 'a'], 0, 1, 1⟩] = [(0, ⟨[' ', 'a'], 0, 1, 1⟩)] ∧
    pySlice (pyStrip (flattenText [⟨[' ', 'a'], 0, 1, 1⟩])) 0 2 = ['a'] ∧
    pySlice (pyStrip (flattenText [⟨[' ', 'a'], 0, 1, 1⟩])) 0 2 ≠ [' ', 'a'] := by
  decide

/-- C4 (amended): the substring identity
`flattened[offset(k) : offset(k) + len(text_k)] = text_k` holds for every
token on the flattened text itself, for every token sequence; on the text
actually handed to the sentence splitter — the flattened text after
`strip()` — it holds provided every token text is non-empty and neither
starts nor ends with whitespace. -/
theorem c4_flatten_offsets :
    (∀ (words : List Word) (pos : Nat) (w : Word),
      (pos, w) ∈ wordOffsets 0 words →
      pySlice (flattenText words) pos (pos + w.text.length) = w.text) ∧
    (∀ (words : List Word), edgeOk words →
      ∀ (pos : Nat) (w : Word), (pos, w) ∈ wordOffsets 0 words →
        pySlice (pyStrip (flattenText words)) pos (pos + w.text.length) = w.text) := by
  constructor
  · intro words pos w h
    have := flattenText_slice words 0 h
    rwa [Nat.sub_zero] at this
  · intro words hedge pos w h
    have hwords : words ≠ [] := by
      intro hw
      rw [hw] at h
      cases h
    obtain ⟨Y, hY, hstrip⟩ := pyStrip_flattenText hwords hedge
    have hbound := wordOffsets_bound words 0 h
    rw [Nat.sub_zero] at hbound
    have hYlen : pos + w.text.length ≤ Y.length := by
      have : (flattenText words).length = Y.length + 1 := by
        rw [hY, List.length_append]
        rfl
      omega
    rw [hstrip]
    have hfull := flattenText_slice words 0 h
    rw [Nat.sub_zero] at hfull
    rw [hY] at hfull
    rw [pySlice_add] at hfull ⊢
    rw [List.drop_append_of_le_length (by omega)] at hfull
    rw [List.take_append_of_le_length (by
      rw [List.length_drop]
      omega)] at hfull
    exact hfull

/-- Witness for C4 (amended) at a concrete input: a whitespace-free token
text is recovered from the stripped flattened text. -/
theorem c4_flatten_offsets_witness :
    pySlice (pyStrip (flattenText [⟨['h', 'i'], 0, 1, 1⟩])) 0 2 = ['h', 'i'] :=
  c4_flatten_offsets.2 [⟨['h', 'i'], 0, 1, 1⟩] (by unfold edgeOk; decide) 0
    ⟨['h', 'i'], 0, 1, 1⟩ (by decide)

/-- `getLast?` of a non-empty list is its `getLastD`, for any default. -/
theorem getLast?_cons_getLastD {α : Type} :
    ∀ (xs : List α) (x d : α), (x :: xs).getLast? = some ((x :: xs).getLastD d) := by
  intro xs
  induction xs with
  | nil => intro x d; rfl
  | cons y ys ih =>
    intro x d
    rw [List.getLast?_cons_cons, ih y d]
    rfl

/-- Every span emitted by the whisper_service `_segment_into_sentences` has
a non-empty word list whose first word supplies the start time and whose
last word supplies the end time. -/
theorem segmentIntoSentences_shape :
    ∀ (words : List Word) (sents : List SentSpan) (seg : SentenceSegment),
      seg ∈ segmentIntoSentences words sents →
      seg.words ≠ [] ∧ seg.words.head?.map Word.start = some seg.start ∧
        seg.words.getLast?.map Word.end_ = some seg.end_ := by
  intro words sents seg hmem
  unfold segmentIntoSentences at hmem
  rcases List.mem_filterMap.mp hmem with ⟨s, _, hf⟩
  dsimp only at hf
  by_cases hem : (pyStrip s.text).isEmpty
  · rw [if_pos hem] at hf; cases hf
  · rw [if_neg hem] at hf
    cases hp : sentencePairs (wordOffsets 0 words) s with
    | nil => rw [hp] at hf; cases hf
    | cons pw rest =>
      rw [hp] at hf
      dsimp only at hf
      have hseg : seg = _ := (Option.some.inj hf).symm
      subst hseg
      refine ⟨by simp, rfl, ?_⟩
      rw [show ((pw :: rest).map Prod.snd) = pw.2 :: rest.map Prod.snd from rfl]
      rw [getLast?_cons_getLastD (rest.map Prod.snd) pw.2 pw.2]
      rfl

/-- Every span emitted by the audio_analyzer `_segment_into_sentences` has
a non-empty word list whose first word supplies the start time and whose
last word supplies the end time. -/
theorem segmentIntoSentencesA_shape :
    ∀ (words : List Word) (sents : List SentSpan) (seg : SentenceSegment),
      seg ∈ segmentIntoSentencesA words sents →
      seg.words ≠ [] ∧ seg.words.head?.map Word.start = some seg.start ∧
        seg.words.getLast?.map Word.end_ = some seg.end_ := by
  intro words sents seg hmem
  unfold segmentIntoSentencesA at hmem
  rcases List.mem_filterMap.mp hmem with ⟨s, _, hf⟩
  cases hp : sentenceWordsA s 0 words with
  | nil => rw [hp] at hf; cases hf
  | cons w rest =>
    rw [hp] at hf
    dsimp only at hf
    have hseg : seg = _ := (Option.some.inj hf).symm
    subst hseg
    refine ⟨by simp, rfl, ?_⟩
    rw [getLast?_cons_getLastD rest w w]
    rfl

/-- C2: every sentence span either `_segment_into_sentences` variant emits
starts at the start time of its first contained token and ends at the
end time of its last contained token; a span whose contained-token set is empty is
never emitted; and a token only partially inside a sentence's character
range — straddling the boundary with the next sentence — satisfies the
containment test of neither neighbor, hence is assigned to neither. -/
theorem c2_sentence_spans :
    (∀ (words : List Word) (sents : List SentSpan) (seg : SentenceSegment),
      seg ∈ segmentIntoSentences words sents →
      seg.words ≠ [] ∧ seg.words.head?.map Word.start = some seg.start ∧
        seg.words.getLast?.map Word.end_ = some seg.end_) ∧
    (∀ (words : List Word) (sents : List SentSpan) (seg : SentenceSegment),
      seg ∈ segmentIntoSentencesA words sents →
      seg.words ≠ [] ∧ seg.words.head?.map Word.start = some seg.start ∧
        seg.words.getLast?.map Word.end_ = some seg.end_) ∧
    (∀ (A B : SentSpan) (pos : Nat) (w : Word),
      pos < A.endChar → A.endChar < pos + w.text.length →
      A.endChar ≤ B.startChar →
      containedIn A pos w = false ∧ containedIn B pos w = false ∧
      ∀ mapping : List (Nat × Word),
        (pos, w) ∉ sentencePairs mapping A ∧ (pos, w) ∉ sentencePairs mapping B) := by
  refine ⟨segmentIntoSentences_shape, segmentIntoSentencesA_shape, ?_⟩
  intro A B pos w h1 h2 h3
  have hA : containedIn A pos w = false := by
    unfold containedIn
    rw [decide_eq_false (by omega : ¬ pos + w.text.length ≤ A.endChar)]
    rw [Bool.and_false]
  have hB : containedIn B pos w = false := by
    unfold containedIn
    rw [decide_eq_false (by omega : ¬ B.startChar ≤ pos)]
    rw [Bool.false_and]
  refine ⟨hA, hB, fun mapping => ⟨?_, ?_⟩⟩
  · intro hmem
    have := (List.mem_filter.mp hmem).2
    rw [hA] at this
    cases this
  · intro hmem
    have := (List.mem_filter.mp hmem).2
    rw [hB] at this
    cases this

/-- Witness for C2 at a concrete input: a token at offset 1 of length 2
straddling the boundary at character 2 is selected for neither the
sentence ending there nor the one starting there. -/
theorem c2_sentence_spans_witness :
    containedIn ⟨['x'], 0, 2⟩ 1 ⟨['a', 'b'], 0, 1, 1⟩ = false ∧
    (1, (⟨['a', 'b'], 0, 1, 1⟩ : Word)) ∉
      sentencePairs [(1, ⟨['a', 'b'], 0, 1, 1⟩)] ⟨['x'], 0, 2⟩ :=
  ⟨(c2_sentence_spans.2.2 ⟨['x'], 0, 2⟩ ⟨['y'], 2, 5⟩ 1 ⟨['a', 'b'], 0, 1, 1⟩
      (by decide) (by decide) (by decide)).1,
    ((c2_sentence_spans.2.2 ⟨['x'], 0, 2⟩ ⟨['y'], 2, 5⟩ 1 ⟨['a', 'b'], 0, 1, 1⟩
      (by decide) (by decide) (by decide)).2.2
      [(1, ⟨['a', 'b'], 0, 1, 1⟩)]).1⟩

/-- A string whose leftmost component has characters is not empty. -/
theorem append3_ne_empty {a : String} (b c : String) (ha : a.length ≠ 0) :
    a ++ b ++ c ≠ "" := by
  intro h
  have hlen : (a ++ b ++ c).length = 0 := by rw [h]; rfl
  rw [String.length_append, String.length_append] at hlen
  omega

/-- `filter_word` of `tasks.py` always returns either acceptance carrying
the lemma of the analyzed token, or rejection carrying a non-empty
reason. -/
theorem tasksFilterWord_cases (analyze : String → List SpacyTok) (w : String) :
    (∃ t, analyze ((String.mk (pyStrip w.data)).toLower) = [t] ∧
      tasksFilterWord analyze w = (true, t.lemma_)) ∨
    (∃ reason, tasksFilterWord analyze w = (false, reason) ∧ reason ≠ "") := by
  unfold tasksFilterWord
  cases hdoc : analyze ((String.mk (pyStrip w.data)).toLower) with
  | nil =>
    exact Or.inr ⟨notSingleReason [], rfl, append3_ne_empty _ _ (by decide)⟩
  | cons t ts =>
    cases ts with
    | nil =>
      dsimp only
      by_cases hpos : t.pos_ ∈ excludePos
      · rw [if_pos hpos]
        exact Or.inr ⟨_, rfl, append3_ne_empty _ _ (by decide)⟩
      · rw [if_neg hpos]
        by_cases hstop : t.is_stop = true
        · rw [if_pos hstop]
          exact Or.inr ⟨_, rfl, by decide⟩
        · rw [if_neg hstop]
          by_cases hlen : t.lemma_.length ≤ 1
          · rw [if_pos hlen]
            exact Or.inr ⟨_, rfl, append3_ne_empty _ _ (by decide)⟩
          · rw [if_neg hlen]
            exact Or.inl ⟨t, rfl, rfl⟩
    | cons t2 ts2 =>
      exact Or.inr ⟨notSingleReason (t :: t2 :: ts2), rfl,
        append3_ne_empty _ _ (by decide)⟩

/-- The linguistic-analysis phase of `_filter_word` of `views.py` always
returns either acceptance carrying the constant `"accepted"`, or rejection
carrying a non-empty reason. -/
theorem viewsAnalyzePhase_cases (analyze : String → List SpacyTok)
    (cleaned : String) :
    viewsAnalyzePhase analyze cleaned = (true, "accepted") ∨
    (∃ reason, viewsAnalyzePhase analyze cleaned = (false, reason) ∧
      reason ≠ "") := by
  unfold viewsAnalyzePhase
  cases hdoc : analyze cleaned with
  | nil =>
    exact Or.inr ⟨notSingleReason [], rfl, append3_ne_empty _ _ (by decide)⟩
  | cons t ts =>
    cases ts with
    | nil =>
      dsimp only
      by_cases hpos : t.pos_ ∈ excludePos
      · rw [if_pos hpos]
        exact Or.inr ⟨_, rfl, append3_ne_empty _ _ (by decide)⟩
      · rw [if_neg hpos]
        by_cases hstop : t.is_stop = true
        · rw [if_pos hstop]
          exact Or.inr ⟨_, rfl, by decide⟩
        · rw [if_neg hstop]
          by_cases halpha : (!pyIsAlpha t.lemma_) = true
          · rw [if_pos halpha]
            exact Or.inr ⟨_, rfl, by decide⟩
          · rw [if_neg halpha]
            by_cases hlen : t.lemma_.length ≤ 1
            · rw [if_pos hlen]
              exact Or.inr ⟨_, rfl, append3_ne_empty _ _ (by decide)⟩
            · rw [if_neg hlen]
              exact Or.inl rfl
    | cons t2 ts2 =>
      exact Or.inr ⟨notSingleReason (t :: t2 :: ts2), rfl,
        append3_ne_empty _ _ (by decide)⟩

/-- C6 is false as stated: an accepting run of the `views.py` gate returns
the constant diagnostic string `"accepted"` as its second component, not
the lemma the analyzer computed.  Here the analyzer lemmatizes `dogs` to
`dog`, yet the gate returns `"accepted"` — so the accepted result does not
carry the lemma. -/
theorem c6_filter_gate_counterexample :
    viewsFilterWord (fun _ => [⟨"dogs", "NOUN", false, "dog"⟩]) "dogs" =
      (true, "accepted") ∧
    (⟨"dogs", "NOUN", false, "dog"⟩ : SpacyTok).lemma_ = "dog" ∧
    ("accepted" : String) ≠ "dog" := by
  decide

/-- C6 (amended): both gates are total and exclusive.  For every analyzer
and raw token string, the `tasks.py` gate `filter_word` returns either
`(true, lemma)` — the lemma of the single token the analyzer produced for
the strip-lowered input — or `(false, reason)` with a non-empty reason; and
the `views.py` gate `_filter_word` returns either `(true, "accepted")` — the
constant diagnostic, not the lemma — or `(false, reason)` with a non-empty
reason. -/
theorem c6_filter_gate_totality :
    ∀ (analyze : String → List SpacyTok) (w : String),
      ((∃ t, analyze ((String.mk (pyStrip w.data)).toLower) = [t] ∧
          tasksFilterWord analyze w = (true, t.lemma_)) ∨
        (∃ reason, tasksFilterWord analyze w = (false, reason) ∧ reason ≠ "")) ∧
      (viewsFilterWord analyze w = (true, "accepted") ∨
        (∃ reason, viewsFilterWord analyze w = (false, reason) ∧ reason ≠ "")) := by
  intro analyze w
  refine ⟨tasksFilterWord_cases analyze w, ?_⟩
  unfold viewsFilterWord
  by_cases hclean : (cleanWord w).isEmpty = true
  · rw [if_pos hclean]
    exact Or.inr ⟨"清理后为空", rfl, by decide⟩
  · rw [if_neg hclean]
    exact viewsAnalyzePhase_cases analyze (cleanWord w)

/-- C7 is false as stated: the cleaning stage never rejects a doubled
hyphen — `well--known` passes cleaning unchanged and reaches linguistic
analysis; with an analyzer that treats it as one alphabetic-lemma token the
gate even accepts it, so it is certainly not rejected at the cleaning
stage. -/
theorem c7_cleaning_stage_counterexample :
    viewsFilterWord (fun s => [⟨s, "NOUN", false, "wellknown"⟩]) "well--known" =
      (true, "accepted") := by
  decide

/-- C7 (amended): cleaning maps the accented-apostrophe-hyphen scenario
word to its normalized form and hands it to linguistic analysis, but
`well--known` survives cleaning unchanged — the cleaning stage rejects
exactly the inputs whose cleaned form is empty (so a bare hyphen, which
cleans to empty, is rejected), while leading and trailing hyphens are
stripped rather than rejected and doubled hyphens are not rejected at
all. -/
theorem c7_cleaning_stage :
    cleanWord cafeRaw = cafeCleaned ∧
    cleanWord "well--known" = "well--known" ∧
    (∀ (analyze : String → List SpacyTok) (w : String),
      ¬ (cleanWord w).isEmpty = true →
      viewsFilterWord analyze w = viewsAnalyzePhase analyze (cleanWord w)) ∧
    cleanWord "-" = "" ∧
    cleanWord "-abc-" = "abc" := by
  refine ⟨by decide, by decide, ?_, by decide, by decide⟩
  intro analyze w h
  unfold viewsFilterWord
  rw [if_neg h]

/-- Witness for C7 (amended) at a concrete input: a word with a non-empty
cleaned form reaches the linguistic-analysis phase. -/
theorem c7_cleaning_stage_witness :
    viewsFilterWord (fun s => [⟨s, "X", true, ""⟩]) "ok" =
      viewsAnalyzePhase (fun s => [⟨s, "X", true, ""⟩]) (cleanWord "ok") :=
  c7_cleaning_stage.2.2.1 (fun s => [⟨s, "X", true, ""⟩]) "ok" (by decide)

end Podtrack
